import Mathlib

/-!
Verification of the workflow-orchestration core of product_flow_agent
(src/pipeline/base.py and src/pipeline/runner.py): context model, graph
validation, Kahn ordering, and the sequential execution semantics.
-/

namespace ProductFlowAgent

/-- Opaque runtime values stored in a context: node results (opaque payloads)
and the execution-order list the engine records into metadata. -/
inductive Val where
  | str : String → Val
  | names : List String → Val
deriving DecidableEq

/-- Python dict with string keys, modelled as an insertion-ordered association
list; the operations below maintain key uniqueness exactly as a dict does. -/
abbrev Dict := List (String × Val)

/-- Dictionary lookup. -/
def dget (d : Dict) (k : String) : Option Val :=
  (d.find? (fun p => p.1 == k)).map (·.2)

/-- Dictionary assignment: replaces the value in place if the key is present,
otherwise appends the new binding (Python dict update semantics). -/
def dset : Dict → String → Val → Dict
  | [], k, v => [(k, v)]
  | p :: rest, k, v => if p.1 == k then (k, v) :: rest else p :: dset rest k v

/-- Key list of a dict, in insertion order. -/
def dkeys (d : Dict) : List String := d.map (·.1)

/-- Right-biased key-wise union of two dicts as computed by the Python
double-splat of the left dict followed by the right dict. -/
def dunion (l r : Dict) : Dict := r.foldl (fun acc p => dset acc p.1 p.2) l

/-- Embeds PipelineContext from src/pipeline/base.py. -/
structure PipelineContext where
  inputs : Dict := []
  artifacts : Dict := []
  metadata : Dict := []
deriving DecidableEq

/-- Embeds PipelineContext.set_artifact. -/
def PipelineContext.set_artifact (ctx : PipelineContext) (key : String) (value : Val) :
    PipelineContext :=
  { ctx with artifacts := dset ctx.artifacts key value }

/-- Embeds _merge_contexts from src/pipeline/runner.py.  The Python fast path
that returns left when both arguments are the very same object is a reference
identity test; it is dropped here because the key-wise union produces an equal
context in that case (proved below). -/
def mergeContexts : Option PipelineContext → Option PipelineContext → PipelineContext
  | none, none => {}
  | none, some r => r
  | some l, none => l
  | some l, some r =>
    { inputs := dunion l.inputs r.inputs
      artifacts := dunion l.artifacts r.artifacts
      metadata := dunion l.metadata r.metadata }

/-- Embeds Node and ConditionalNode from src/pipeline/base.py as a tagged
record: conditional is the isinstance ConditionalNode test of runner.py, and
route_map / route are only meaningful when it is set.  route_map is an
insertion-ordered association list like the Python dict. -/
structure Node where
  name : String
  depends_on : List String := []
  conditional : Bool := false
  route_map : List (String × String) := []
  run : PipelineContext → Val := fun _ => Val.str ""
  route : PipelineContext → String := fun _ => ""

/-- The distinct PipelineError diagnoses raised by runner.py, one constructor
per raise site, carrying the data interpolated into the message. -/
inductive PErr where
  | duplicateNode
  | missingDependency (missing : List String)
  | dependencyCycle (residual : List String)
  | orphanedConditionalDependency (node dep : String)
  | unlistedRouteTarget (cond target : String)
  | emptyRouteMap (node : String)
  | badRouteTarget (label target : String)
  | unknownRouteLabel (node label : String)
deriving DecidableEq

def nodeNames (nodes : List Node) : List String := nodes.map (·.name)

/-- Lookup in the nodes_by_name dict; after the duplicate check all names are
distinct, so first-match lookup agrees with the Python dict. -/
def lookupNode (nodes : List Node) (x : String) : Option Node :=
  nodes.find? (fun n => n.name == x)

/-- depends_on of the node called x (empty when no such node exists). -/
def depsOf (nodes : List Node) (x : String) : List String :=
  match lookupNode nodes x with
  | some n => n.depends_on
  | none => []

/-- Set-like deduplication keeping first occurrences. -/
def dedupFirst : List String → List String → List String
  | [], _ => []
  | x :: xs, seen => if seen.contains x then dedupFirst xs seen else x :: dedupFirst xs (x :: seen)

def insertSorted (x : String) : List String → List String
  | [] => [x]
  | y :: ys => if x ≤ y then x :: y :: ys else y :: insertSorted x ys

def sortStrings (l : List String) : List String := l.foldr insertSorted []

/-- Embeds _missing_dependencies composed with the sorting done for the error
message: the sorted set of dependency names absent from the node set. -/
def missingDependencies (nodes : List Node) : List String :=
  sortStrings (dedupFirst
    ((nodes.map (fun n => n.depends_on.filter (fun d => !(nodeNames nodes).contains d))).flatten) [])

/-- The in-degree table built by _resolve_order: one count per depends_on
entry of each node.  Int so that decrements track the Python counter exactly
even below zero. -/
def initIndeg (nodes : List Node) (x : String) : Int :=
  match lookupNode nodes x with
  | some n => n.depends_on.length
  | none => 0

/-- The dependents map of _resolve_order: one entry of the dependent's name
per occurrence of d in its depends_on list, in node-list order. -/
def dependentsOf (nodes : List Node) (d : String) : List String :=
  (nodes.map (fun n => (n.depends_on.filter (fun x => x == d)).map (fun _ => n.name))).flatten

/-- Body of one while-loop iteration of Kahn's sort in _resolve_order:
decrement the in-degree of every dependent of the popped node, enqueueing
each one that reaches exactly zero. -/
def processChildren (children : List String) (indeg : String → Int) (queue : List String) :
    (String → Int) × List String :=
  children.foldl
    (fun acc child =>
      (Function.update acc.1 child (acc.1 child - 1),
       if acc.1 child - 1 = 0 then acc.2 ++ [child] else acc.2))
    (indeg, queue)

/-- The while queue loop of _resolve_order.  Fuel bounds the number of
iterations; a fuel of the number of nodes is always enough, see
kahnLoop_fuel_stable below. -/
def kahnLoop (dep : String → List String) :
    Nat → (String → Int) → List String → List String → List String
  | 0, _, _, order => order
  | fuel + 1, indeg, queue, order =>
    match queue with
    | [] => order
    | name :: rest =>
      let p := processChildren (dep name) indeg rest
      kahnLoop dep fuel p.1 p.2 (order ++ [name])

/-- The order_names list computed by _resolve_order. -/
def kahnOrderNames (nodes : List Node) : List String :=
  kahnLoop (dependentsOf nodes) (nodeNames nodes).length (initIndeg nodes)
    ((nodeNames nodes).filter (fun x => initIndeg nodes x == 0)) []

/-- The cycle_nodes list of _resolve_order: node names never emitted. -/
def cycleResidual (nodes : List Node) : List String :=
  (nodeNames nodes).filter (fun x => !(kahnOrderNames nodes).contains x)

/-- Embeds Pipeline._resolve_order: duplicate check (the dict-size test),
missing-dependency check, Kahn's sort, cycle check. -/
def resolveOrder (nodes : List Node) : Except PErr (List Node) :=
  if (nodeNames nodes).Nodup then
    if (missingDependencies nodes).isEmpty then
      if (kahnOrderNames nodes).length = nodes.length then
        .ok ((kahnOrderNames nodes).filterMap (lookupNode nodes))
      else
        .error (.dependencyCycle (cycleResidual nodes))
    else
      .error (.missingDependency (missingDependencies nodes))
  else
    .error .duplicateNode

/-- First failure of the first loop of _validate_conditional_dependencies:
a node that depends on a conditional node without appearing among that
node's route targets. -/
def firstOrphan (order : List Node) : Option (String × String) :=
  order.findSome? (fun n =>
    n.depends_on.findSome? (fun dep =>
      match lookupNode order dep with
      | some c =>
        if c.conditional && !((c.route_map.map (·.2)).contains n.name) then
          some (n.name, dep)
        else none
      | none => none))

/-- First failure of the second loop of _validate_conditional_dependencies:
an existing route target that does not list the conditional node in its own
depends_on. -/
def firstUnlisted (order : List Node) : Option (String × String) :=
  (order.filter (·.conditional)).findSome? (fun c =>
    (c.route_map.map (·.2)).findSome? (fun target =>
      if target == "END" || target == "__end__" then none
      else
        match lookupNode order target with
        | some tn => if !tn.depends_on.contains c.name then some (c.name, target) else none
        | none => none))

/-- First failure of the conditional-edge loop of _build_graph: an empty
route_map, or a route target (checked in route_map order by
_normalize_route_map) that is neither a sentinel spelling nor a node name. -/
def firstRouteMapError (order : List Node) : Option PErr :=
  (order.filter (·.conditional)).findSome? (fun c =>
    if c.route_map.isEmpty then some (.emptyRouteMap c.name)
    else
      c.route_map.findSome? (fun p =>
        if p.2 == "END" || p.2 == "__end__" then none
        else if (nodeNames order).contains p.2 then none
        else some (.badRouteTarget p.1 p.2)))

/-- Validation performed by Pipeline._build_graph before the compiled graph
can run anything: both conditional-consistency loops, then the route-map
loop, in source order. -/
def validateGraph (order : List Node) : Option PErr :=
  match firstOrphan order with
  | some pr => some (.orphanedConditionalDependency pr.1 pr.2)
  | none =>
    match firstUnlisted order with
    | some pr => some (.unlistedRouteTarget pr.1 pr.2)
    | none => firstRouteMapError order

/-- The name of the first conditional node in order whose route_map is empty,
if any. -/
def firstEmptyConditional (order : List Node) : Option String :=
  (order.filter (·.conditional)).findSome? (fun c =>
    if c.route_map.isEmpty then some c.name else none)

/-- Run-time state of the sequential execution mode: the context, the set of
node names pruned off the taken path, and the names executed so far. -/
structure ExecState where
  ctx : PipelineContext
  pruned : List String
  executed : List String
deriving DecidableEq

/-- Route-target normalisation of _normalize_route_map for a single target
string: the two sentinel spellings map to the terminal (none). -/
def normTarget (t : String) : Option String :=
  if t == "END" || t == "__end__" then none else some t

/-- A node is skipped when it was pruned off the taken path or one of its
dependencies was. -/
def isSkipped (s : ExecState) (n : Node) : Bool :=
  s.pruned.contains n.name || n.depends_on.any (fun d => s.pruned.contains d)

/-- The per-node step of _wrap_node: execute the operation against the
current context and store the result under the node's own identity. -/
def applyNode (n : Node) (ctx : PipelineContext) : PipelineContext :=
  ctx.set_artifact n.name (n.run ctx)

/-- Statically declared dependents of a conditional node other than the
chosen target; these are pruned for the remainder of the run. -/
def prunedDependents (all : List Node) (c : Node) (keep : Option String) : List String :=
  ((all.filter (fun m => m.depends_on.contains c.name)).map (·.name)).filter
    (fun x => !(keep == some x))

/-- Modelled from the spec: one step of the sequential execution mode of
section 4.2 (the graph scheduler itself, langgraph, is not part of the source
tree).  The artifact write and the routing call embed _wrap_node and _route
from runner.py: the routing function sees the context after the node's own
result is stored, an unknown label is a fatal error, and the chosen route
prunes every other statically declared dependent of the conditional node. -/
def runNode (all : List Node) (n : Node) (s : ExecState) : ExecState × Option PErr :=
  if isSkipped s n then
    ({ s with pruned := s.pruned ++ [n.name] }, none)
  else
    let ctx1 := applyNode n s.ctx
    let s1 : ExecState := { ctx := ctx1, pruned := s.pruned, executed := s.executed ++ [n.name] }
    if n.conditional then
      match n.route_map.find? (fun p => p.1 == n.route ctx1) with
      | none => (s1, some (.unknownRouteLabel n.name (n.route ctx1)))
      | some p =>
        ({ s1 with pruned := s1.pruned ++ prunedDependents all n (normTarget p.2) }, none)
    else
      (s1, none)

/-- Modelled from the spec: walk the static order sequentially, stopping at
the first error and surfacing the state mutated so far. -/
def execNodes (all : List Node) : List Node → ExecState → ExecState × Option PErr
  | [], s => (s, none)
  | n :: rest, s =>
    match runNode all n s with
    | (s', none) => execNodes all rest s'
    | (s', some e) => (s', some e)

/-- Embeds the metadata write of Pipeline.arun, performed after ordering and
before _build_graph validates conditional consistency. -/
def setMetaOrder (ctx : PipelineContext) (order : List Node) : PipelineContext :=
  { ctx with metadata := dset ctx.metadata "execution_order" (Val.names (order.map (·.name))) }

/-- Embeds Pipeline.arun: ordering validation, the execution_order metadata
write, graph validation, then execution (the last modelled from the spec's
sequential mode, langgraph not being part of the source tree).  The returned
state carries the context as mutated so far even on failure, as the Python
caller's context object does. -/
def arunEx (nodes : List Node) (ctx : PipelineContext) : ExecState × Option PErr :=
  match resolveOrder nodes with
  | .error e => (⟨ctx, [], []⟩, some e)
  | .ok order =>
    let ctx1 := setMetaOrder ctx order
    match validateGraph order with
    | some e => (⟨ctx1, [], []⟩, some e)
    | none => execNodes order order ⟨ctx1, [], []⟩

/-- The context returned (or left mutated on failure) by a run, with the
error if any. -/
def arun (nodes : List Node) (ctx : PipelineContext) : PipelineContext × Option PErr :=
  ((arunEx nodes ctx).1.ctx, (arunEx nodes ctx).2)

/-- Modelled from the spec: the ordering algorithm as the spec describes it,
Kahn's sort with every edge whose source is a conditional node excluded from
in-degree counting (section 4.2).  Defined for comparison with resolveOrder,
which excludes nothing. -/
def stripConditionalDeps (nodes : List Node) : List Node :=
  nodes.map (fun n =>
    { n with depends_on := n.depends_on.filter (fun d =>
        match lookupNode nodes d with
        | some m => !m.conditional
        | none => true) })

/-- The node-name order produced by the spec's claimed algorithm. -/
def specOrderNames (nodes : List Node) : Except PErr (List String) :=
  (resolveOrder (stripConditionalDeps nodes)).map (List.map Node.name)

/-- Errors detected before any node executes (everything except the run-time
unknown-route-label error). -/
def PErr.isValidation : PErr → Bool
  | .unknownRouteLabel _ _ => false
  | _ => true

/-- Errors raised by _resolve_order itself, before the metadata write. -/
def PErr.isResolveStage : PErr → Bool
  | .duplicateNode => true
  | .missingDependency _ => true
  | .dependencyCycle _ => true
  | _ => false

/-- Key uniqueness of every dict of a context, an invariant Python dicts
provide by construction. -/
def CtxWF (c : PipelineContext) : Prop :=
  (dkeys c.inputs).Nodup ∧ (dkeys c.artifacts).Nodup ∧ (dkeys c.metadata).Nodup

/-! ## Dictionary lemmas -/

theorem dget_dset_self (d : Dict) (k : String) (v : Val) : dget (dset d k v) k = some v := by
  induction d with
  | nil => simp [dset, dget]
  | cons p rest ih =>
    by_cases h : p.1 = k
    · simp [dset, dget, h]
    · simpa [dset, dget, h] using ih

theorem dget_dset_ne (d : Dict) (k k' : String) (v : Val) (h : k' ≠ k) :
    dget (dset d k v) k' = dget d k' := by
  induction d with
  | nil => simp [dset, dget, Ne.symm h]
  | cons p rest ih =>
    by_cases hp : p.1 = k
    · by_cases hp' : p.1 = k' <;> simp_all [dset, dget]
    · by_cases hp' : p.1 = k' <;> simp_all [dset, dget]

theorem dset_of_not_mem (d : Dict) (k : String) (v : Val) (h : ¬ k ∈ dkeys d) :
    dset d k v = d ++ [(k, v)] := by
  induction d with
  | nil => simp [dset]
  | cons p rest ih =>
    simp only [dkeys, List.map_cons, List.mem_cons] at h
    push_neg at h
    rw [show dset (p :: rest) k v = p :: dset rest k v by simp [dset, Ne.symm h.1]]
    rw [ih (by simpa [dkeys] using h.2)]
    rfl

theorem dkeys_dset_of_not_mem (d : Dict) (k : String) (v : Val) (h : ¬ k ∈ dkeys d) :
    dkeys (dset d k v) = dkeys d ++ [k] := by
  rw [dset_of_not_mem d k v h]; simp [dkeys]

theorem dset_eq_of_dget (d : Dict) (k : String) (v : Val) (h : dget d k = some v) :
    dset d k v = d := by
  induction d with
  | nil => simp [dget] at h
  | cons p rest ih =>
    obtain ⟨pk, pv⟩ := p
    by_cases hp : pk = k
    · subst hp
      have hv : pv = v := by simpa [dget] using h
      simp [dset, hv]
    · have h' : dget rest k = some v := by simpa [dget, hp] using h
      simp [dset, hp, ih h']

theorem dget_of_mem_nodup (d : Dict) (k : String) (v : Val)
    (hnd : (dkeys d).Nodup) (hmem : (k, v) ∈ d) : dget d k = some v := by
  induction d with
  | nil => simp at hmem
  | cons p rest ih =>
    simp only [dkeys, List.map_cons, List.nodup_cons] at hnd
    rcases List.mem_cons.mp hmem with h | h
    · simp [dget, ← h]
    · have hk : p.1 ≠ k := by
        intro he
        exact hnd.1 (he ▸ (List.mem_map.mpr ⟨(k, v), h, rfl⟩))
      simp only [dget, List.find?_cons]
      rw [show (p.1 == k) = false by simpa using hk]
      exact ih hnd.2 h

theorem dget_none_of_not_mem (d : Dict) (k : String) (h : ¬ k ∈ dkeys d) :
    dget d k = none := by
  induction d with
  | nil => simp [dget]
  | cons p rest ih =>
    simp only [dkeys, List.map_cons, List.mem_cons] at h
    push_neg at h
    simp only [dget, List.find?_cons]
    rw [show (p.1 == k) = false by simpa using fun he : p.1 = k => h.1 he.symm]
    exact ih (by simpa [dkeys] using h.2)

theorem mem_dkeys_of_dget (d : Dict) (k : String) (v : Val) (h : dget d k = some v) :
    k ∈ dkeys d := by
  by_contra hc
  rw [dget_none_of_not_mem d k hc] at h
  exact Option.noConfusion h

theorem dget_dunion (l r : Dict) (k : String) (hr : (dkeys r).Nodup) :
    dget (dunion l r) k = match dget r k with
      | some v => some v
      | none => dget l k := by
  induction r generalizing l with
  | nil => simp [dunion, dget]
  | cons p rest ih =>
    simp only [dkeys, List.map_cons, List.nodup_cons] at hr
    have step : dunion l (p :: rest) = dunion (dset l p.1 p.2) rest := by
      simp [dunion]
    rw [step, ih _ hr.2]
    by_cases hk : k ∈ dkeys rest
    · have hrg : ∃ v, dget rest k = some v := by
        rcases List.mem_map.mp hk with ⟨q, hq, hqk⟩
        exact ⟨q.2, dget_of_mem_nodup rest k q.2 hr.2 (by rwa [show (k, q.2) = q by
          ext <;> simp [hqk]])⟩
      rcases hrg with ⟨v, hv⟩
      have hne : p.1 ≠ k := fun he => hr.1 (he ▸ hk)
      have : dget (p :: rest) k = some v := by
        simp only [dget, List.find?_cons]
        rw [show (p.1 == k) = false by simpa using hne]
        simpa [dget] using hv
      rw [hv, this]
    · rw [dget_none_of_not_mem rest k hk]
      by_cases hpk : p.1 = k
      · subst hpk
        have : dget (p :: rest) p.1 = some p.2 := by simp [dget]
        rw [this, dget_dset_self]
      · have : dget (p :: rest) k = none := by
          simp only [dget, List.find?_cons]
          rw [show (p.1 == k) = false by simpa using hpk]
          exact dget_none_of_not_mem rest k hk
        rw [this, dget_dset_ne l p.1 k p.2 (fun he => hpk he.symm)]

theorem dunion_eq_left (l r : Dict) (h : ∀ p ∈ r, dget l p.1 = some p.2) :
    dunion l r = l := by
  induction r generalizing l with
  | nil => rfl
  | cons p rest ih =>
    have step : dunion l (p :: rest) = dunion (dset l p.1 p.2) rest := by
      simp [dunion]
    rw [step, dset_eq_of_dget l p.1 p.2 (h p (List.mem_cons_self p rest))]
    exact ih l (fun q hq => h q (List.mem_cons_of_mem p hq))

theorem dunion_self (d : Dict) (h : (dkeys d).Nodup) : dunion d d = d :=
  dunion_eq_left d d (fun p hp => dget_of_mem_nodup d p.1 p.2 h hp)

/-! ## Node lookup lemmas -/

theorem lookupNode_name (nodes : List Node) (x : String) (n : Node)
    (h : lookupNode nodes x = some n) : n.name = x := by
  simpa using List.find?_some h

theorem lookupNode_mem (nodes : List Node) (x : String) (n : Node)
    (h : lookupNode nodes x = some n) : n ∈ nodes :=
  List.mem_of_find?_eq_some h

theorem lookupNode_of_mem_names (nodes : List Node) (x : String) (h : x ∈ nodeNames nodes) :
    ∃ n, lookupNode nodes x = some n ∧ n.name = x := by
  induction nodes with
  | nil => simp [nodeNames] at h
  | cons n rest ih =>
    by_cases hn : n.name = x
    · exact ⟨n, by simp [lookupNode, hn], hn⟩
    · have hx : x ∈ nodeNames rest := by
        have h' := h
        simp only [nodeNames, List.map_cons, List.mem_cons] at h'
        rcases h' with h1 | h1
        · exact absurd h1.symm hn
        · exact h1
      rcases ih hx with ⟨m, hm, hname⟩
      exact ⟨m, by simpa [lookupNode, hn] using hm, hname⟩

theorem initIndeg_eq_depsOf (nodes : List Node) (x : String) :
    initIndeg nodes x = ((depsOf nodes x).length : Int) := by
  unfold initIndeg depsOf
  cases lookupNode nodes x <;> simp

theorem mem_names_of_depsOf_ne (nodes : List Node) (x : String) (h : depsOf nodes x ≠ []) :
    x ∈ nodeNames nodes := by
  unfold depsOf at h
  cases hl : lookupNode nodes x with
  | none => simp [hl] at h
  | some n =>
    exact (lookupNode_name _ _ _ hl) ▸ List.mem_map.mpr ⟨n, lookupNode_mem _ _ _ hl, rfl⟩

theorem mem_dependentsOf (nodes : List Node) (d x : String) (h : x ∈ dependentsOf nodes d) :
    x ∈ nodeNames nodes := by
  unfold dependentsOf at h
  rcases List.mem_flatten.mp h with ⟨l, hl, hx⟩
  rcases List.mem_map.mp hl with ⟨n, hn, rfl⟩
  rcases List.mem_map.mp hx with ⟨_, _, rfl⟩
  exact List.mem_map.mpr ⟨n, hn, rfl⟩

theorem count_dependentsOf (nodes : List Node) (hnd : (nodeNames nodes).Nodup)
    (name x : String) :
    (dependentsOf nodes name).count x = (depsOf nodes x).count name := by
  induction nodes with
  | nil => simp [dependentsOf, depsOf, lookupNode]
  | cons n rest ih =>
    have hsplit : dependentsOf (n :: rest) name =
        ((n.depends_on.filter (fun y => y == name)).map (fun _ => n.name)) ++
          dependentsOf rest name := by
      simp [dependentsOf]
    have hnd0 : n.name ∉ nodeNames rest ∧ (nodeNames rest).Nodup := by
      simpa only [nodeNames, List.map_cons, List.nodup_cons] using hnd
    have hnd' : (nodeNames rest).Nodup ∧ n.name ∉ nodeNames rest := ⟨hnd0.2, hnd0.1⟩
    have hconst : ((n.depends_on.filter (fun y => y == name)).map (fun _ => n.name)).count x =
        if n.name = x then n.depends_on.count name else 0 := by
      rw [List.map_const']
      rw [List.count_replicate]
      simp only [beq_iff_eq]
      by_cases hcase : n.name = x
      · simp only [hcase, if_true]
        rw [List.count, List.countP_eq_length_filter]
      · simp [hcase]
    by_cases hcase : n.name = x
    · have hrest0 : (dependentsOf rest name).count x = 0 := by
        rw [List.count_eq_zero]
        intro hmem
        exact (hcase ▸ hnd'.2) (mem_dependentsOf rest name x hmem)
      have hdeps : depsOf (n :: rest) x = n.depends_on := by
        simp [depsOf, lookupNode, hcase]
      rw [hsplit, List.count_append, hconst, hrest0, hdeps]
      simp [hcase]
    · have hdeps : depsOf (n :: rest) x = depsOf rest x := by
        simp [depsOf, lookupNode, hcase]
      rw [hsplit, List.count_append, hconst, hdeps, ih hnd'.1]
      simp [hcase]

/-! ## Kahn loop iteration lemmas -/

theorem processChildren_cons (c : String) (cs : List String) (indeg : String → Int)
    (queue : List String) :
    processChildren (c :: cs) indeg queue =
      processChildren cs (Function.update indeg c (indeg c - 1))
        (if indeg c - 1 = 0 then queue ++ [c] else queue) := by
  simp [processChildren]

theorem processChildren_fst (children : List String) (indeg : String → Int)
    (queue : List String) (x : String) :
    (processChildren children indeg queue).1 x = indeg x - (children.count x : Int) := by
  induction children generalizing indeg queue with
  | nil => simp [processChildren]
  | cons c cs ih =>
    rw [processChildren_cons, ih]
    by_cases hx : x = c
    · subst hx
      rw [Function.update_same, List.count_cons]
      simp only [beq_self_eq_true, if_true]
      push_cast
      ring
    · rw [Function.update_noteq hx, List.count_cons]
      rw [show (c == x) = false by simpa using fun he : c = x => hx he.symm]
      simp

theorem processChildren_snd (children : List String) (indeg : String → Int)
    (queue : List String) :
    ∃ newq, (processChildren children indeg queue).2 = queue ++ newq ∧ newq.Nodup ∧
      ∀ z ∈ newq, z ∈ children ∧ 1 ≤ indeg z ∧ indeg z ≤ (children.count z : Int) := by
  induction children generalizing indeg queue with
  | nil => exact ⟨[], by simp [processChildren], List.nodup_nil, by simp⟩
  | cons c cs ih =>
    rcases ih (Function.update indeg c (indeg c - 1))
        (if indeg c - 1 = 0 then queue ++ [c] else queue) with ⟨newq', hq, hnd, hprop⟩
    have htransfer : ∀ z ∈ newq', z ∈ c :: cs ∧ 1 ≤ indeg z ∧
        indeg z ≤ ((c :: cs).count z : Int) := by
      intro z hz
      have h1 := (hprop z hz).1
      have h2 := (hprop z hz).2.1
      have h3 := (hprop z hz).2.2
      by_cases hne : z = c
      · subst hne
        rw [Function.update_same] at h2 h3
        refine ⟨List.mem_cons_self z cs, by omega, ?_⟩
        have hcount : (z :: cs).count z = cs.count z + 1 := by
          rw [List.count_cons]; simp
        rw [hcount]; push_cast; omega
      · rw [Function.update_noteq hne] at h2 h3
        refine ⟨List.mem_cons_of_mem c h1, h2, ?_⟩
        have hcount : cs.count z ≤ (c :: cs).count z := by rw [List.count_cons]; omega
        have hc2 : (cs.count z : Int) ≤ ((c :: cs).count z : Int) := by exact_mod_cast hcount
        omega
    by_cases hc : indeg c - 1 = 0
    · have hnotc : ∀ z ∈ newq', z ≠ c := by
        intro z hz he
        have h2 := (hprop z hz).2.1
        rw [he, Function.update_same, hc] at h2
        omega
      refine ⟨c :: newq', ?_, ?_, ?_⟩
      · rw [processChildren_cons, hq, if_pos hc]
        simp
      · exact List.nodup_cons.mpr ⟨fun hmem => (hnotc c hmem) rfl, hnd⟩
      · intro z hz
        rcases List.mem_cons.mp hz with hzc | hz'
        · subst hzc
          refine ⟨List.mem_cons_self z cs, by omega, ?_⟩
          have hcpos : 0 < (z :: cs).count z := List.count_pos_iff.mpr (List.mem_cons_self z cs)
          have h1 : (1 : Int) ≤ ((z :: cs).count z : Int) := by exact_mod_cast hcpos
          omega
        · exact htransfer z hz'
    · refine ⟨newq', ?_, hnd, htransfer⟩
      rw [processChildren_cons, hq, if_neg hc]

/-! ## Kahn loop invariant -/

/-- order is a topological sequence of node names: the dependencies of every
element lie in the strict prefix before it. -/
def TopoNames (nodes : List Node) (order : List String) : Prop :=
  ∀ o1 x o2, order = o1 ++ x :: o2 → ∀ d ∈ depsOf nodes x, d ∈ o1

/-- Loop invariant of the Kahn while loop of _resolve_order. -/
def KahnInv (nodes : List Node) (indeg : String → Int) (queue order : List String) : Prop :=
  (order ++ queue).Nodup ∧
  (∀ x ∈ order ++ queue, x ∈ nodeNames nodes) ∧
  (∀ x, indeg x = (((depsOf nodes x).filter (fun d => !order.contains d)).length : Int)) ∧
  (∀ x ∈ queue, ∀ d ∈ depsOf nodes x, d ∈ order) ∧
  TopoNames nodes order

theorem topoNames_deps_mem (nodes : List Node) (order : List String) (x : String)
    (ht : TopoNames nodes order) (hx : x ∈ order) :
    ∀ d ∈ depsOf nodes x, d ∈ order := by
  rcases List.append_of_mem hx with ⟨o1, o2, rfl⟩
  intro d hd
  exact List.mem_append.mpr (Or.inl (ht o1 x o2 rfl d hd))

theorem topoNames_append (nodes : List Node) (order : List String) (name : String)
    (ht : TopoNames nodes order) (hdeps : ∀ d ∈ depsOf nodes name, d ∈ order) :
    TopoNames nodes (order ++ [name]) := by
  intro o1 x o2 heq d hd
  rcases List.append_eq_append_iff.mp heq with ⟨a', h1, h2⟩ | ⟨c', h1, h2⟩
  · cases a' with
    | nil =>
      simp only [List.append_nil] at h1
      cases h2
      exact h1 ▸ hdeps d hd
    | cons y ys => simp at h2
  · cases c' with
    | nil =>
      simp only [List.append_nil] at h1
      cases h2
      exact h1 ▸ hdeps d hd
    | cons y ys =>
      have hy : x = y ∧ o2 = ys ++ [name] := by
        have := h2
        simp only [List.cons_append, List.cons.injEq] at this
        exact ⟨this.1, this.2⟩
      rcases hy with ⟨rfl, _⟩
      exact ht o1 x ys h1 d hd

theorem filter_not_mem_append_single (l order : List String) (name : String)
    (h : name ∉ order) :
    (l.filter (fun d => !(order ++ [name]).contains d)).length + l.count name =
      (l.filter (fun d => !order.contains d)).length := by
  induction l with
  | nil => simp
  | cons a as ih =>
    rw [List.filter_cons, List.filter_cons, List.count_cons]
    have hifT : ∀ (l1 l2 : List String), (if (true = true) then l1 else l2) = l1 := by
      intro l1 l2; simp
    have hifF : ∀ (l1 l2 : List String), (if (false = true) then l1 else l2) = l2 := by
      intro l1 l2; simp
    by_cases ha : a = name
    · subst ha
      have h1 : ((order ++ [a]).contains a) = true := by simp [List.elem_eq_mem]
      have h2 : (order.contains a) = false := by simp [List.elem_eq_mem, h]
      rw [h1, h2, show ((!true) : Bool) = false from rfl, show ((!false) : Bool) = true from rfl]
      rw [hifF, hifT, show ((a == a) : Bool) = true from beq_self_eq_true a]
      rw [show (if (true = true) then 1 else 0) = 1 by simp]
      simp only [List.length_cons]
      omega
    · have heq2 : ((order ++ [name]).contains a) = (order.contains a) := by
        by_cases hmem : a ∈ order
        · simp [List.elem_eq_mem, hmem]
        · simp [List.elem_eq_mem, hmem, ha]
      have hcnt : ((a == name) : Bool) = false := by simpa using ha
      rw [heq2, hcnt, show (if (false = true) then 1 else 0) = 0 by simp]
      by_cases hmem : (order.contains a) = true
      · rw [hmem, show ((!true) : Bool) = false from rfl, hifF, hifF]
        omega
      · have h3 : (order.contains a) = false := by simpa using hmem
        rw [h3, show ((!false) : Bool) = true from rfl, hifT, hifT]
        simp only [List.length_cons]
        omega

theorem kahnInv_step (nodes : List Node) (hnd : (nodeNames nodes).Nodup)
    (indeg : String → Int) (name : String) (rest order : List String)
    (hinv : KahnInv nodes indeg (name :: rest) order) :
    KahnInv nodes (processChildren (dependentsOf nodes name) indeg rest).1
      (processChildren (dependentsOf nodes name) indeg rest).2 (order ++ [name]) := by
  obtain ⟨hnodup, hmem, hcount, hqdeps, htopo⟩ := hinv
  obtain ⟨newq, hq2, hqnd, hqprop⟩ := processChildren_snd (dependentsOf nodes name) indeg rest
  have hname_mem_q : name ∈ name :: rest := List.mem_cons_self _ _
  have hname_notin_order : name ∉ order := by
    intro hmemo
    rcases List.nodup_append.mp hnodup with ⟨_, _, hdisj⟩
    exact hdisj hmemo hname_mem_q
  have hname_deps : ∀ d ∈ depsOf nodes name, d ∈ order := hqdeps name hname_mem_q
  have hcount' : ∀ x, (processChildren (dependentsOf nodes name) indeg rest).1 x =
      (((depsOf nodes x).filter (fun d => !(order ++ [name]).contains d)).length : Int) := by
    intro x
    rw [processChildren_fst, hcount x, count_dependentsOf nodes hnd name x]
    have hdrop := filter_not_mem_append_single (depsOf nodes x) order name hname_notin_order
    omega
  have hnewq_all : ∀ z ∈ newq, ∀ d ∈ depsOf nodes z, d ∈ order ++ [name] := by
    intro z hz
    have h2 := (hqprop z hz).2.2
    have hfin := hcount' z
    rw [processChildren_fst] at hfin
    have hlen0 : ((depsOf nodes z).filter (fun d => !(order ++ [name]).contains d)).length = 0 := by
      omega
    have hnil : ((depsOf nodes z).filter (fun d => !(order ++ [name]).contains d)) = [] :=
      List.length_eq_zero.mp hlen0
    intro d hd
    have hfd := List.filter_eq_nil_iff.mp hnil d hd
    have hor : d ∈ order ∨ d = name :=
      or_iff_not_imp_left.mpr (by simpa [List.elem_eq_mem] using hfd)
    rcases hor with h | h
    · exact List.mem_append.mpr (Or.inl h)
    · exact List.mem_append.mpr (Or.inr (by simp [h]))
  have hnewq_names : ∀ z ∈ newq, z ∈ nodeNames nodes := fun z hz =>
    mem_dependentsOf nodes name z (hqprop z hz).1
  have hfresh : ∀ z ∈ newq, z ∉ order ∧ z ≠ name ∧ z ∉ rest := by
    intro z hz
    have h1 : 1 ≤ indeg z := (hqprop z hz).2.1
    have hzc := hcount z
    have hne : ((depsOf nodes z).filter (fun d => !order.contains d)) ≠ [] := by
      intro hnil
      rw [hnil] at hzc
      simp at hzc
      omega
    obtain ⟨d, hd⟩ := List.exists_mem_of_ne_nil _ hne
    have hdmem : d ∈ depsOf nodes z := List.mem_of_mem_filter hd
    have hdno : d ∉ order := by
      have hp := List.of_mem_filter hd
      simpa [List.elem_eq_mem] using hp
    refine ⟨?_, ?_, ?_⟩
    · intro hzo
      exact hdno (topoNames_deps_mem nodes order z htopo hzo d hdmem)
    · intro hzn
      exact hdno (hname_deps d (hzn ▸ hdmem))
    · intro hzr
      exact hdno (hqdeps z (List.mem_cons_of_mem _ hzr) d hdmem)
  have hbase : ((order ++ [name]) ++ rest).Nodup := by
    rw [List.append_assoc]
    simpa using hnodup
  refine ⟨?_, ?_, hcount', ?_, ?_⟩
  · rw [hq2, show (order ++ [name]) ++ (rest ++ newq) = ((order ++ [name]) ++ rest) ++ newq by
      simp]
    rw [List.nodup_append]
    refine ⟨hbase, hqnd, ?_⟩
    intro a ha hanew
    rcases hfresh a hanew with ⟨hno, hnn, hnr⟩
    rcases List.mem_append.mp ha with ha1 | ha2
    · rcases List.mem_append.mp ha1 with ha3 | ha4
      · exact hno ha3
      · exact hnn (by simpa using ha4)
    · exact hnr ha2
  · intro x hx
    rw [hq2] at hx
    rcases List.mem_append.mp hx with hx1 | hx2
    · rcases List.mem_append.mp hx1 with hx3 | hx4
      · exact hmem x (List.mem_append.mpr (Or.inl hx3))
      · have hxe : x = name := by simpa using hx4
        exact hmem x (List.mem_append.mpr (Or.inr (by rw [hxe]; exact List.mem_cons_self _ _)))
    · rcases List.mem_append.mp hx2 with hx3 | hx4
      · exact hmem x (List.mem_append.mpr (Or.inr (List.mem_cons_of_mem _ hx3)))
      · exact hnewq_names x hx4
  · intro x hx d hd
    rw [hq2] at hx
    rcases List.mem_append.mp hx with hx1 | hx2
    · exact List.mem_append.mpr (Or.inl (hqdeps x (List.mem_cons_of_mem _ hx1) d hd))
    · exact hnewq_all x hx2 d hd
  · exact topoNames_append nodes order name htopo hname_deps

theorem kahnLoop_inv (nodes : List Node) (hnd : (nodeNames nodes).Nodup) :
    ∀ (fuel : Nat) (indeg : String → Int) (queue order : List String),
      KahnInv nodes indeg queue order →
      TopoNames nodes (kahnLoop (dependentsOf nodes) fuel indeg queue order) ∧
        (kahnLoop (dependentsOf nodes) fuel indeg queue order).Nodup ∧
        ∀ x ∈ kahnLoop (dependentsOf nodes) fuel indeg queue order, x ∈ nodeNames nodes := by
  intro fuel
  induction fuel with
  | zero =>
    intro indeg queue order hinv
    obtain ⟨hnodup, hmem, _, _, htopo⟩ := hinv
    refine ⟨htopo, ?_, ?_⟩
    · exact List.Nodup.sublist (List.sublist_append_left order queue) hnodup
    · intro x hx
      exact hmem x (List.mem_append.mpr (Or.inl hx))
  | succ fuel ih =>
    intro indeg queue order hinv
    cases queue with
    | nil =>
      obtain ⟨hnodup, hmem, _, _, htopo⟩ := hinv
      refine ⟨htopo, ?_, ?_⟩
      · exact List.Nodup.sublist (List.sublist_append_left order []) hnodup
      · intro x hx
        exact hmem x (List.mem_append.mpr (Or.inl hx))
    | cons name rest =>
      have hstep := kahnInv_step nodes hnd indeg name rest order hinv
      have hres := ih _ _ _ hstep
      simpa only [kahnLoop] using hres

theorem kahnLoop_fuel_stable (nodes : List Node) (hnd : (nodeNames nodes).Nodup) :
    ∀ (fuel1 fuel2 : Nat) (indeg : String → Int) (queue order : List String),
      KahnInv nodes indeg queue order →
      (nodeNames nodes).length ≤ order.length + fuel1 →
      (nodeNames nodes).length ≤ order.length + fuel2 →
      kahnLoop (dependentsOf nodes) fuel1 indeg queue order =
        kahnLoop (dependentsOf nodes) fuel2 indeg queue order := by
  intro fuel1
  induction fuel1 with
  | zero =>
    intro fuel2 indeg queue order hinv h1 h2
    have hqnil : queue = [] := by
      cases queue with
      | nil => rfl
      | cons q qs =>
        exfalso
        obtain ⟨hnodup, hmem, _, _, _⟩ := hinv
        have hsub : (order ++ q :: qs).Subperm (nodeNames nodes) :=
          hnodup.subperm (fun x hx => hmem x hx)
        have hlen := hsub.length_le
        simp at hlen
        omega
    subst hqnil
    cases fuel2 with
    | zero => rfl
    | succ f2 => simp [kahnLoop]
  | succ f1 ih =>
    intro fuel2 indeg queue order hinv h1 h2
    cases queue with
    | nil =>
      cases fuel2 with
      | zero => simp [kahnLoop]
      | succ f2 => simp [kahnLoop]
    | cons name rest =>
      cases fuel2 with
      | zero =>
        exfalso
        obtain ⟨hnodup, hmem, _, _, _⟩ := hinv
        have hsub : (order ++ name :: rest).Subperm (nodeNames nodes) :=
          hnodup.subperm (fun x hx => hmem x hx)
        have hlen := hsub.length_le
        simp at hlen
        omega
      | succ f2 =>
        have hstep := kahnInv_step nodes hnd indeg name rest order hinv
        have hlen1 : (nodeNames nodes).length ≤ (order ++ [name]).length + f1 := by
          simp
          omega
        have hlen2 : (nodeNames nodes).length ≤ (order ++ [name]).length + f2 := by
          simp
          omega
        simp only [kahnLoop]
        exact ih f2 _ _ _ hstep hlen1 hlen2

theorem kahnInv_init (nodes : List Node) (hnd : (nodeNames nodes).Nodup) :
    KahnInv nodes (initIndeg nodes)
      ((nodeNames nodes).filter (fun x => initIndeg nodes x == 0)) [] := by
  refine ⟨?_, ?_, ?_, ?_, ?_⟩
  · simpa using hnd.filter _
  · intro x hx
    simp only [List.nil_append] at hx
    exact List.mem_of_mem_filter hx
  · intro x
    rw [initIndeg_eq_depsOf]
    simp
  · intro x hx d hd
    have h0 : initIndeg nodes x = 0 := by simpa using List.of_mem_filter hx
    rw [initIndeg_eq_depsOf] at h0
    have hlen : (depsOf nodes x).length = 0 := by exact_mod_cast h0
    rw [List.length_eq_zero.mp hlen] at hd
    simp at hd
  · intro o1 x o2 heq
    simp at heq

theorem kahnOrderNames_props (nodes : List Node) (hnd : (nodeNames nodes).Nodup) :
    TopoNames nodes (kahnOrderNames nodes) ∧ (kahnOrderNames nodes).Nodup ∧
      ∀ x ∈ kahnOrderNames nodes, x ∈ nodeNames nodes :=
  kahnLoop_inv nodes hnd _ _ _ _ (kahnInv_init nodes hnd)

/-- A fuel of the number of nodes is enough: the fuelled loop of
kahnOrderNames computes the same order as the loop run with any larger fuel,
so it coincides with the unbounded Python while loop. -/
theorem kahnOrderNames_fuel_enough (nodes : List Node) (hnd : (nodeNames nodes).Nodup)
    (fuel : Nat) (hf : (nodeNames nodes).length ≤ fuel) :
    kahnLoop (dependentsOf nodes) fuel (initIndeg nodes)
        ((nodeNames nodes).filter (fun x => initIndeg nodes x == 0)) [] =
      kahnOrderNames nodes := by
  exact kahnLoop_fuel_stable nodes hnd fuel (nodeNames nodes).length _ _ _
    (kahnInv_init nodes hnd) (by simpa using hf) (by simp)

theorem resolveOrder_ok_parts (nodes : List Node) (order : List Node)
    (h : resolveOrder nodes = .ok order) :
    (nodeNames nodes).Nodup ∧ (missingDependencies nodes).isEmpty = true ∧
      (kahnOrderNames nodes).length = nodes.length ∧
      order = (kahnOrderNames nodes).filterMap (lookupNode nodes) := by
  unfold resolveOrder at h
  split at h
  · split at h
    · split at h
      · cases h
        exact ⟨by assumption, by assumption, by assumption, rfl⟩
      · cases h
    · cases h
  · cases h

theorem filterMap_lookup_names (nodes : List Node) (l : List String)
    (hl : ∀ x ∈ l, x ∈ nodeNames nodes) :
    (l.filterMap (lookupNode nodes)).map Node.name = l := by
  induction l with
  | nil => simp
  | cons x xs ih =>
    rcases lookupNode_of_mem_names nodes x (hl x (List.mem_cons_self _ _)) with ⟨n, hn, hname⟩
    rw [List.filterMap_cons, hn]
    simp only [List.map_cons]
    rw [hname, ih (fun y hy => hl y (List.mem_cons_of_mem _ hy))]

theorem kahnOrderNames_perm (nodes : List Node) (hnd : (nodeNames nodes).Nodup)
    (hlen : (kahnOrderNames nodes).length = nodes.length) :
    (kahnOrderNames nodes).Perm (nodeNames nodes) := by
  obtain ⟨_, hnodup, hmem⟩ := kahnOrderNames_props nodes hnd
  obtain ⟨l', hperm, hsl⟩ := hnodup.subperm (fun x hx => hmem x hx)
  have hlen' : l'.length = (nodeNames nodes).length := by
    rw [hperm.length_eq, hlen]
    simp [nodeNames]
  have heq := hsl.eq_of_length hlen'
  subst heq
  exact hperm.symm

theorem resolveOrder_ok_spec (nodes : List Node) (order : List Node)
    (h : resolveOrder nodes = .ok order) :
    order.map Node.name = kahnOrderNames nodes ∧
      (order.map Node.name).Perm (nodeNames nodes) ∧
      TopoNames nodes (order.map Node.name) ∧
      (order.map Node.name).Nodup := by
  obtain ⟨h1, _, h3, h4⟩ := resolveOrder_ok_parts nodes order h
  obtain ⟨htopo, hnodup, hmem⟩ := kahnOrderNames_props nodes h1
  have hmap : order.map Node.name = kahnOrderNames nodes := by
    rw [h4]
    exact filterMap_lookup_names nodes _ hmem
  refine ⟨hmap, ?_, ?_, ?_⟩
  · rw [hmap]
    exact kahnOrderNames_perm nodes h1 h3
  · rw [hmap]
    exact htopo
  · rw [hmap]
    exact hnodup

theorem resolveOrder_topo_nodes (nodes : List Node) (order : List Node)
    (h : resolveOrder nodes = .ok order) :
    ∀ o1 n o2, order = o1 ++ n :: o2 → ∀ d ∈ n.depends_on, d ∈ o1.map Node.name := by
  obtain ⟨_, _, htopo, _⟩ := resolveOrder_ok_spec nodes order h
  obtain ⟨h1, _, _, h4⟩ := resolveOrder_ok_parts nodes order h
  intro o1 n o2 heq d hd
  have hsplit : order.map Node.name = (o1.map Node.name) ++ n.name :: (o2.map Node.name) := by
    rw [heq]
    simp
  have hn_mem : n ∈ order := by
    rw [heq]
    simp
  have hlook : lookupNode nodes n.name = some n := by
    rw [h4] at hn_mem
    rcases List.mem_filterMap.mp hn_mem with ⟨x, _, hx⟩
    have hnx := lookupNode_name nodes x n hx
    rw [hnx]
    exact hx
  have hdeps : d ∈ depsOf nodes n.name := by
    rw [show depsOf nodes n.name = n.depends_on by simp [depsOf, hlook]]
    exact hd
  exact htopo (o1.map Node.name) n.name (o2.map Node.name) hsplit d hdeps

/-! ## Cycles -/

/-- x depends on y: y occurs in the depends_on list of the node named x. -/
def DepRel (nodes : List Node) (x y : String) : Prop := y ∈ depsOf nodes x

theorem chain_mem_succ {R : String → String → Prop} :
    ∀ (l : List String) (a b : String), List.Chain R a (l ++ [b]) →
      ∀ x ∈ a :: l, ∃ y ∈ a :: l ++ [b], R x y := by
  intro l
  induction l with
  | nil =>
    intro a b hchain x hx
    have hxa : x = a := by simpa using hx
    subst hxa
    rcases hchain with _ | ⟨hab, _⟩
    exact ⟨b, by simp, hab⟩
  | cons c cs ih =>
    intro a b hchain x hx
    rcases hchain with _ | ⟨hac, hchain2⟩
    rcases List.mem_cons.mp hx with rfl | hx2
    · exact ⟨c, by simp, hac⟩
    · rcases ih c b hchain2 x hx2 with ⟨y, hy, hxy⟩
      refine ⟨y, ?_, hxy⟩
      exact List.mem_cons_of_mem a (by simpa using hy)

theorem topo_take_no_cycle (nodes : List Node) (order : List String)
    (htopo : TopoNames nodes order) (a : String) (l : List String)
    (hchain : List.Chain (DepRel nodes) a (l ++ [a])) :
    ∀ k, ∀ x ∈ a :: l, x ∈ order.take k → False := by
  intro k
  induction k with
  | zero =>
    intro x _ hx
    simp at hx
  | succ k ih =>
    intro x hxm hx
    rw [List.take_succ] at hx
    rcases List.mem_append.mp hx with hx1 | hx2
    · exact ih x hxm hx1
    · rcases ho : order[k]? with _ | y
      · rw [ho] at hx2
        simp at hx2
      · rw [ho] at hx2
        have hxy : x = y := by simpa using hx2
        subst hxy
        have hk : k < order.length := by
          by_contra hge
          rw [List.getElem?_eq_none (by omega)] at ho
          cases ho
        have hsplit : order = order.take k ++ order[k] :: order.drop (k + 1) := by
          rw [← List.drop_eq_getElem_cons hk, List.take_append_drop]
        have hgety : order[k] = x := by
          have hg := List.getElem?_eq_getElem hk
          rw [ho] at hg
          exact (Option.some.injEq _ _ ▸ hg).symm
        have hdeps := htopo (order.take k) order[k] (order.drop (k + 1)) hsplit
        rw [hgety] at hdeps
        rcases chain_mem_succ l a a hchain x hxm with ⟨z, hz, hxz⟩
        have hz2 : z ∈ a :: l := by
          rcases List.mem_cons.mp hz with rfl | hz3
          · exact List.mem_cons_self _ _
          · rcases List.mem_append.mp hz3 with hz4 | hz5
            · exact List.mem_cons_of_mem _ hz4
            · have hza : z = a := by simpa using hz5
              rw [hza]
              exact List.mem_cons_self _ _
        exact ih z hz2 (hdeps z hxz)

theorem cycle_members_in_names (nodes : List Node) (a : String) (l : List String)
    (hchain : List.Chain (DepRel nodes) a (l ++ [a])) :
    ∀ x ∈ a :: l, x ∈ nodeNames nodes := by
  intro x hx
  rcases chain_mem_succ l a a hchain x hx with ⟨y, _, hxy⟩
  refine mem_names_of_depsOf_ne nodes x ?_
  intro hnil
  simp only [DepRel] at hxy
  rw [hnil] at hxy
  simp at hxy

theorem cycle_not_in_kahn (nodes : List Node) (hnd : (nodeNames nodes).Nodup)
    (a : String) (l : List String)
    (hchain : List.Chain (DepRel nodes) a (l ++ [a])) :
    ∀ x ∈ a :: l, x ∉ kahnOrderNames nodes := by
  obtain ⟨htopo, _, _⟩ := kahnOrderNames_props nodes hnd
  intro x hx hmem
  have htake : x ∈ (kahnOrderNames nodes).take (kahnOrderNames nodes).length := by
    rw [List.take_length]
    exact hmem
  exact topo_take_no_cycle nodes _ htopo a l hchain _ x hx htake

theorem cycle_resolveOrder (nodes : List Node) (hnd : (nodeNames nodes).Nodup)
    (hmiss : (missingDependencies nodes).isEmpty = true)
    (a : String) (l : List String)
    (hchain : List.Chain (DepRel nodes) a (l ++ [a])) :
    resolveOrder nodes = .error (.dependencyCycle (cycleResidual nodes)) ∧
      ∀ x ∈ a :: l, x ∈ cycleResidual nodes := by
  have hnames := cycle_members_in_names nodes a l hchain
  have hnotk := cycle_not_in_kahn nodes hnd a l hchain
  have hlt : (kahnOrderNames nodes).length ≠ nodes.length := by
    intro hlen
    have hperm := kahnOrderNames_perm nodes hnd hlen
    exact hnotk a (List.mem_cons_self _ _)
      (hperm.symm.subset (hnames a (List.mem_cons_self _ _)))
  constructor
  · unfold resolveOrder
    rw [if_pos hnd, if_pos hmiss, if_neg hlt]
  · intro x hx
    unfold cycleResidual
    refine List.mem_filter.mpr ⟨hnames x hx, ?_⟩
    simp only [List.elem_eq_mem, Bool.not_eq_true']
    simpa using hnotk x hx

/-! ## Executor lemmas -/

theorem execNodes_append (all : List Node) (l1 l2 : List Node) (s : ExecState) :
    execNodes all (l1 ++ l2) s =
      match execNodes all l1 s with
      | (s', none) => execNodes all l2 s'
      | (s', some e) => (s', some e) := by
  induction l1 generalizing s with
  | nil => simp [execNodes]
  | cons n rest ih =>
    rcases hr : runNode all n s with ⟨s1, e1⟩
    simp only [List.cons_append, execNodes, hr]
    cases e1 with
    | none => exact ih s1
    | some err => rfl

theorem runNode_err (all : List Node) (n : Node) (s s' : ExecState) (e : PErr)
    (h : runNode all n s = (s', some e)) : ∃ lbl, e = .unknownRouteLabel n.name lbl := by
  unfold runNode at h
  by_cases hsk : isSkipped s n = true
  · rw [if_pos hsk] at h
    injection h with h1 h2
    exact Option.noConfusion h2
  · rw [if_neg hsk] at h
    by_cases hc : n.conditional = true
    · rw [if_pos hc] at h
      rcases hf : n.route_map.find? (fun p => p.1 == n.route (applyNode n s.ctx)) with _ | p
      · rw [hf] at h
        injection h with h1 h2
        injection h2 with h3
        exact ⟨_, h3.symm⟩
      · rw [hf] at h
        injection h with h1 h2
        exact Option.noConfusion h2
    · rw [if_neg hc] at h
      injection h with h1 h2
      exact Option.noConfusion h2

theorem execNodes_err (all : List Node) :
    ∀ (l : List Node) (s s' : ExecState) (e : PErr),
      execNodes all l s = (s', some e) → ∃ nm lbl, e = .unknownRouteLabel nm lbl := by
  intro l
  induction l with
  | nil =>
    intro s s' e h
    simp [execNodes] at h
  | cons n rest ih =>
    intro s s' e h
    rcases hr : runNode all n s with ⟨s1, e1⟩
    simp only [execNodes, hr] at h
    cases e1 with
    | none => exact ih s1 s' e h
    | some err =>
      injection h with h1 h2
      injection h2 with h3
      subst h3
      rcases runNode_err all n s s1 err hr with ⟨lbl, hl⟩
      exact ⟨n.name, lbl, hl⟩

theorem runNode_state (all : List Node) (n : Node) (s : ExecState) :
    ((runNode all n s).1.ctx.artifacts = s.ctx.artifacts ∧
      (runNode all n s).1.executed = s.executed) ∨
    ((runNode all n s).1.ctx.artifacts = dset s.ctx.artifacts n.name (n.run s.ctx) ∧
      (runNode all n s).1.executed = s.executed ++ [n.name]) := by
  by_cases hsk : isSkipped s n = true
  · left
    constructor <;> simp [runNode, hsk]
  · right
    unfold runNode
    rw [if_neg hsk]
    simp only []
    constructor
    · split
      · split <;> simp [applyNode, PipelineContext.set_artifact]
      · simp [applyNode, PipelineContext.set_artifact]
    · split
      · split <;> simp
      · simp

theorem execNodes_artifacts_inv (all : List Node) :
    ∀ (l : List Node) (s : ExecState),
      (l.map Node.name).Nodup →
      dkeys s.ctx.artifacts = s.executed →
      s.executed.Nodup →
      (∀ x ∈ s.executed, ¬ x ∈ l.map Node.name) →
      dkeys (execNodes all l s).1.ctx.artifacts = (execNodes all l s).1.executed ∧
        (execNodes all l s).1.executed.Nodup := by
  intro l
  induction l with
  | nil =>
    intro s _ h1 h2 _
    exact ⟨h1, h2⟩
  | cons n rest ih =>
    intro s hlnd h1 h2 h3
    have hlnd2 : n.name ∉ rest.map Node.name ∧ (rest.map Node.name).Nodup := by
      simpa only [List.map_cons, List.nodup_cons] using hlnd
    rcases hr : runNode all n s with ⟨s1, e1⟩
    have hst := runNode_state all n s
    rw [hr] at hst
    have hs1 : dkeys s1.ctx.artifacts = s1.executed ∧ s1.executed.Nodup ∧
        ∀ x ∈ s1.executed, x ∈ s.executed ∨ x = n.name := by
      rcases hst with ⟨ha, he⟩ | ⟨ha, he⟩
      · refine ⟨by rw [ha, he, h1], by rw [he]; exact h2, fun x hx => Or.inl (by rw [← he]; exact hx)⟩
      · have hnotin : n.name ∉ dkeys s.ctx.artifacts := by
          rw [h1]
          intro hmem
          exact h3 n.name hmem (by simp)
        refine ⟨?_, ?_, ?_⟩
        · rw [ha, he, dkeys_dset_of_not_mem _ _ _ hnotin, h1]
        · rw [he]
          refine List.Nodup.append h2 (List.nodup_singleton _) ?_
          intro x hx hx2
          have hxe : x = n.name := by simpa using hx2
          exact h3 x hx (by simp [hxe])
        · intro x hx
          rw [he] at hx
          rcases List.mem_append.mp hx with hxa | hxb
          · exact Or.inl hxa
          · exact Or.inr (by simpa using hxb)
    cases e1 with
    | some err =>
      simp only [execNodes, hr]
      exact ⟨hs1.1, hs1.2.1⟩
    | none =>
      simp only [execNodes, hr]
      refine ih s1 hlnd2.2 hs1.1 hs1.2.1 ?_
      intro x hx hmem
      rcases hs1.2.2 x hx with hxa | hxb
      · exact h3 x hxa (by simp [hmem])
      · rw [hxb] at hmem
        exact hlnd2.1 hmem

/-! ## Ordering depends only on names and dependency lists -/

/-- The part of a node the ordering algorithm can see. -/
def sig (n : Node) : String × List String := (n.name, n.depends_on)

theorem names_congr (n1 n2 : List Node) (h : n1.map sig = n2.map sig) :
    nodeNames n1 = nodeNames n2 := by
  have h1 : nodeNames n1 = (n1.map sig).map Prod.fst := by
    rw [List.map_map]
    rfl
  have h2 : nodeNames n2 = (n2.map sig).map Prod.fst := by
    rw [List.map_map]
    rfl
  rw [h1, h2, h]

theorem lookup_sig_congr : ∀ (n1 n2 : List Node), n1.map sig = n2.map sig →
    ∀ x, (lookupNode n1 x).map sig = (lookupNode n2 x).map sig := by
  intro n1
  induction n1 with
  | nil =>
    intro n2 h x
    cases n2 with
    | nil => rfl
    | cons b bs => simp at h
  | cons a as ih =>
    intro n2 h x
    cases n2 with
    | nil => simp at h
    | cons b bs =>
      simp only [List.map_cons, List.cons.injEq] at h
      have hab : a.name = b.name := congrArg Prod.fst h.1
      unfold lookupNode
      simp only [List.find?_cons]
      by_cases hx : a.name = x
      · rw [show (a.name == x) = true by simpa using hx,
          show (b.name == x) = true by simpa using hab ▸ hx]
        simpa using h.1
      · rw [show (a.name == x) = false by simpa using hx,
          show (b.name == x) = false by simpa using hab ▸ hx]
        exact ih bs h.2 x

theorem depsOf_congr (n1 n2 : List Node) (h : n1.map sig = n2.map sig) :
    depsOf n1 = depsOf n2 := by
  funext x
  have hl := lookup_sig_congr n1 n2 h x
  unfold depsOf
  cases h1 : lookupNode n1 x <;> cases h2 : lookupNode n2 x <;> rw [h1, h2] at hl <;>
    simp_all [sig]

theorem initIndeg_congr (n1 n2 : List Node) (h : n1.map sig = n2.map sig) :
    initIndeg n1 = initIndeg n2 := by
  funext x
  rw [initIndeg_eq_depsOf, initIndeg_eq_depsOf, depsOf_congr n1 n2 h]

theorem dependentsOf_congr (n1 n2 : List Node) (h : n1.map sig = n2.map sig) :
    dependentsOf n1 = dependentsOf n2 := by
  funext d
  have e1 : dependentsOf n1 d =
      ((n1.map sig).map (fun p => (p.2.filter (fun x => x == d)).map (fun _ => p.1))).flatten := by
    unfold dependentsOf
    rw [List.map_map]
    rfl
  have e2 : dependentsOf n2 d =
      ((n2.map sig).map (fun p => (p.2.filter (fun x => x == d)).map (fun _ => p.1))).flatten := by
    unfold dependentsOf
    rw [List.map_map]
    rfl
  rw [e1, e2, h]

theorem missing_congr (n1 n2 : List Node) (h : n1.map sig = n2.map sig) :
    missingDependencies n1 = missingDependencies n2 := by
  have hn := names_congr n1 n2 h
  unfold missingDependencies
  rw [hn]
  have e1 : ∀ (nodes : List Node) (names : List String),
      nodes.map (fun n => n.depends_on.filter (fun d => !names.contains d)) =
        (nodes.map sig).map (fun p => p.2.filter (fun d => !names.contains d)) := by
    intro nodes names
    rw [List.map_map]
    rfl
  rw [e1, e1, h]

theorem kahn_congr (n1 n2 : List Node) (h : n1.map sig = n2.map sig) :
    kahnOrderNames n1 = kahnOrderNames n2 := by
  unfold kahnOrderNames
  rw [names_congr n1 n2 h, dependentsOf_congr n1 n2 h]
  simp only [initIndeg_congr n1 n2 h]

theorem cycleResidual_congr (n1 n2 : List Node) (h : n1.map sig = n2.map sig) :
    cycleResidual n1 = cycleResidual n2 := by
  unfold cycleResidual
  rw [names_congr n1 n2 h]
  simp only [kahn_congr n1 n2 h]

theorem lookup_name_congr (n1 n2 : List Node) (h : n1.map sig = n2.map sig) (x : String) :
    (lookupNode n1 x).map Node.name = (lookupNode n2 x).map Node.name := by
  have hl := lookup_sig_congr n1 n2 h x
  cases h1 : lookupNode n1 x <;> cases h2 : lookupNode n2 x <;> rw [h1, h2] at hl <;>
    simp_all [sig]

theorem resolveOrder_sig_congr (n1 n2 : List Node) (h : n1.map sig = n2.map sig) :
    (resolveOrder n1).map (List.map Node.name) = (resolveOrder n2).map (List.map Node.name) := by
  have hn := names_congr n1 n2 h
  have hk := kahn_congr n1 n2 h
  have hm := missing_congr n1 n2 h
  have hc := cycleResidual_congr n1 n2 h
  have hlen : n1.length = n2.length := by
    have hh := congrArg List.length h
    simpa using hh
  have hfm : ∀ l : List String,
      (l.filterMap (lookupNode n1)).map Node.name = (l.filterMap (lookupNode n2)).map Node.name := by
    intro l
    rw [List.map_filterMap, List.map_filterMap]
    induction l with
    | nil => rfl
    | cons x xs ih =>
      rw [List.filterMap_cons, List.filterMap_cons, lookup_name_congr n1 n2 h x, ih]
  unfold resolveOrder
  rw [hn, hm, hk, hc, hlen]
  by_cases h1 : (nodeNames n2).Nodup
  · rw [if_pos h1, if_pos h1]
    by_cases h2 : (missingDependencies n2).isEmpty = true
    · rw [if_pos h2, if_pos h2]
      by_cases h3 : (kahnOrderNames n2).length = n2.length
      · rw [if_pos h3, if_pos h3]
        simp only [Except.map]
        rw [hfm]
      · rw [if_neg h3, if_neg h3]
    · rw [if_neg h2, if_neg h2]
  · rw [if_neg h1, if_neg h1]

/-! ## Run staging lemmas -/

theorem arunEx_resolve_error (nodes : List Node) (ctx : PipelineContext) (e : PErr)
    (h : resolveOrder nodes = .error e) :
    arunEx nodes ctx = (⟨ctx, [], []⟩, some e) := by
  unfold arunEx
  rw [h]

theorem arunEx_graph_error (nodes : List Node) (ctx : PipelineContext) (order : List Node)
    (e : PErr) (h : resolveOrder nodes = .ok order) (hv : validateGraph order = some e) :
    arunEx nodes ctx = (⟨setMetaOrder ctx order, [], []⟩, some e) := by
  unfold arunEx
  rw [h]
  simp only [hv]

theorem arunEx_exec (nodes : List Node) (ctx : PipelineContext) (order : List Node)
    (h : resolveOrder nodes = .ok order) (hv : validateGraph order = none) :
    arunEx nodes ctx = execNodes order order ⟨setMetaOrder ctx order, [], []⟩ := by
  unfold arunEx
  rw [h]
  simp only [hv]

theorem findSome?_congr_mem {α β : Type} (f g : α → Option β) :
    ∀ l : List α, (∀ a ∈ l, f a = g a) → l.findSome? f = l.findSome? g := by
  intro l
  induction l with
  | nil => intro _; rfl
  | cons a as ih =>
    intro h
    rw [List.findSome?_cons, List.findSome?_cons, h a (List.mem_cons_self _ _),
      ih (fun b hb => h b (List.mem_cons_of_mem _ hb))]

theorem findSome?_eq_none_of {α β : Type} (f : α → Option β) :
    ∀ l : List α, (∀ a ∈ l, f a = none) → l.findSome? f = none := by
  intro l
  induction l with
  | nil => intro _; rfl
  | cons a as ih =>
    intro h
    rw [List.findSome?_cons, h a (List.mem_cons_self _ _)]
    exact ih (fun b hb => h b (List.mem_cons_of_mem _ hb))

theorem findSome?_option_map {α β γ : Type} (f : α → Option β) (g : β → γ) :
    ∀ l : List α, l.findSome? (fun a => (f a).map g) = (l.findSome? f).map g := by
  intro l
  induction l with
  | nil => rfl
  | cons a as ih =>
    rw [List.findSome?_cons, List.findSome?_cons]
    cases h : f a with
    | none => simp [h, ih]
    | some b => simp [h]

theorem firstRouteMapError_of_targets_ok (order : List Node)
    (h4 : ∀ c ∈ order, c.conditional = true → ∀ p ∈ c.route_map,
      p.2 = "END" ∨ p.2 = "__end__" ∨ p.2 ∈ nodeNames order)
    (cname : String) (hfe : firstEmptyConditional order = some cname) :
    firstRouteMapError order = some (.emptyRouteMap cname) := by
  unfold firstRouteMapError
  have hcong : (order.filter (·.conditional)).findSome? (fun c =>
      if c.route_map.isEmpty then some (PErr.emptyRouteMap c.name)
      else c.route_map.findSome? (fun p =>
        if p.2 == "END" || p.2 == "__end__" then none
        else if (nodeNames order).contains p.2 then none
        else some (.badRouteTarget p.1 p.2))) =
      (order.filter (·.conditional)).findSome? (fun c =>
        if c.route_map.isEmpty then some (PErr.emptyRouteMap c.name) else none) := by
    apply findSome?_congr_mem
    intro c hc
    have hcm : c ∈ order := List.mem_of_mem_filter hc
    have hcc : c.conditional = true := by simpa using List.of_mem_filter hc
    by_cases hemp : c.route_map.isEmpty = true
    · rw [if_pos hemp, if_pos hemp]
    · rw [if_neg hemp, if_neg hemp]
      apply findSome?_eq_none_of
      intro p hp
      by_cases hs : (p.2 == "END" || p.2 == "__end__") = true
      · rw [if_pos hs]
      · rw [if_neg hs]
        rcases h4 c hcm hcc p hp with he | he | he
        · exact absurd (by simp [he]) hs
        · exact absurd (by simp [he]) hs
        · rw [if_pos (by simpa [List.elem_eq_mem] using he)]
  rw [hcong]
  have hcong2 : (order.filter (·.conditional)).findSome?
      (fun c => if c.route_map.isEmpty = true then some (PErr.emptyRouteMap c.name) else none) =
      (order.filter (·.conditional)).findSome?
        (fun c => (if c.route_map.isEmpty = true then some c.name else none).map
          PErr.emptyRouteMap) := by
    apply findSome?_congr_mem
    intro c _
    by_cases hemp : c.route_map.isEmpty = true <;> simp [hemp]
  have hfe2 : (order.filter (·.conditional)).findSome?
      (fun c => if c.route_map.isEmpty = true then some c.name else none) = some cname := hfe
  rw [hcong2, findSome?_option_map, hfe2]
  rfl

theorem firstRouteMapError_shape (order : List Node) (e : PErr)
    (h : firstRouteMapError order = some e) :
    (∃ c, e = .emptyRouteMap c) ∨ ∃ lb t, e = .badRouteTarget lb t := by
  unfold firstRouteMapError at h
  rcases List.exists_of_findSome?_eq_some h with ⟨c, _, hc⟩
  by_cases hemp : c.route_map.isEmpty = true
  · rw [if_pos hemp] at hc
    injection hc with hc2
    exact Or.inl ⟨c.name, hc2.symm⟩
  · rw [if_neg hemp] at hc
    rcases List.exists_of_findSome?_eq_some hc with ⟨p, _, hp⟩
    by_cases hs : (p.2 == "END" || p.2 == "__end__") = true
    · rw [if_pos hs] at hp
      exact Option.noConfusion hp
    · rw [if_neg hs] at hp
      by_cases hm : ((nodeNames order).contains p.2) = true
      · rw [if_pos hm] at hp
        exact Option.noConfusion hp
      · rw [if_neg hm] at hp
        injection hp with hp2
        exact Or.inr ⟨p.1, p.2, hp2.symm⟩

theorem validateGraph_not_resolve_stage (order : List Node) (e : PErr)
    (h : validateGraph order = some e) : e.isResolveStage = false := by
  unfold validateGraph at h
  cases ho : firstOrphan order with
  | some pr =>
    rw [ho] at h
    injection h with h2
    rw [← h2]
    rfl
  | none =>
    rw [ho] at h
    cases hu : firstUnlisted order with
    | some pr =>
      rw [hu] at h
      injection h with h2
      rw [← h2]
      rfl
    | none =>
      rw [hu] at h
      rcases firstRouteMapError_shape order e h with ⟨c, rfl⟩ | ⟨lb, t, rfl⟩ <;> rfl

theorem arunEx_validation_state (nodes : List Node) (ctx : PipelineContext) (st : ExecState)
    (e : PErr) (h : arunEx nodes ctx = (st, some e)) (hv : e.isValidation = true) :
    st.executed = [] ∧ st.ctx.artifacts = ctx.artifacts ∧ st.ctx.inputs = ctx.inputs ∧
      (∀ k, k ≠ "execution_order" → dget st.ctx.metadata k = dget ctx.metadata k) ∧
      (e.isResolveStage = true → st.ctx = ctx) := by
  unfold arunEx at h
  cases hro : resolveOrder nodes with
  | error e0 =>
    rw [hro] at h
    injection h with h1 h2
    injection h2 with h3
    subst h3
    rw [← h1]
    exact ⟨rfl, rfl, rfl, fun k _ => rfl, fun _ => rfl⟩
  | ok order =>
    rw [hro] at h
    cases hvg : validateGraph order with
    | some e1 =>
      simp only [hvg] at h
      injection h with h1 h2
      injection h2 with h3
      subst h3
      rw [← h1]
      refine ⟨rfl, rfl, rfl, ?_, ?_⟩
      · intro k hk
        exact dget_dset_ne ctx.metadata "execution_order" k _ hk
      · intro hrs
        rw [validateGraph_not_resolve_stage order e1 hvg] at hrs
        exact Bool.noConfusion hrs
    | none =>
      simp only [hvg] at h
      rcases execNodes_err order order _ st e h with ⟨nm, lbl, rfl⟩
      exact Bool.noConfusion hv

/-! ## Concrete pipelines for witnesses and counterexamples -/

def emptyCtx : PipelineContext := {}

def nodeA : Node := { name := "A", run := fun _ => Val.str "a" }

def nodeA2 : Node := { name := "A", run := fun _ => Val.str "a2" }

def nodeB : Node := { name := "B", depends_on := ["A"], run := fun _ => Val.str "b" }

def nodeR : Node :=
  { name := "R", conditional := true, route_map := [("go", "D"), ("stop", "END")],
    run := fun _ => Val.str "r", route := fun _ => "stop" }

def nodeRLower : Node :=
  { name := "R", conditional := true, route_map := [("go", "D"), ("stop", "end")],
    run := fun _ => Val.str "r", route := fun _ => "stop" }

def nodeD : Node := { name := "D", depends_on := ["R"], run := fun _ => Val.str "d" }

def nodeQ : Node :=
  { name := "Q", conditional := true, route_map := [("x", "END")],
    run := fun _ => Val.str "q", route := fun _ => "y" }

def nodeCBadTarget : Node :=
  { name := "C", conditional := true, route_map := [("a", "X")],
    run := fun _ => Val.str "c", route := fun _ => "a" }

def nodeX : Node := { name := "X", depends_on := ["Y"], run := fun _ => Val.str "x" }

def nodeY : Node := { name := "Y", depends_on := ["X"], run := fun _ => Val.str "y" }

def nodeSelf : Node := { name := "A", depends_on := ["A", "ghost"], run := fun _ => Val.str "a" }

def nodeD5 : Node := { name := "D", depends_on := ["C"], run := fun _ => Val.str "d" }

def nodeC5 : Node :=
  { name := "C", conditional := true, route_map := [("x", "D")],
    run := fun _ => Val.str "c", route := fun _ => "x" }

def nodeC5plain : Node :=
  { name := "C", conditional := false, route_map := [("x", "D")],
    run := fun _ => Val.str "c", route := fun _ => "x" }

def nodeN10 : Node := { name := "N", depends_on := ["C2"], run := fun _ => Val.str "n" }

def nodeC2cond : Node :=
  { name := "C2", conditional := true, route_map := [("a", "END")],
    run := fun _ => Val.str "c2", route := fun _ => "a" }

def nodeC1empty : Node :=
  { name := "C1", conditional := true, route_map := [],
    run := fun _ => Val.str "c1", route := fun _ => "a" }

def ctxL : PipelineContext :=
  { inputs := [("k", Val.str "l"), ("a", Val.str "1")], artifacts := [("m", Val.str "2")],
    metadata := [] }

def ctxR : PipelineContext :=
  { inputs := [("k", Val.str "r")], artifacts := [], metadata := [("z", Val.str "9")] }

/-! ## Claims -/

/-- C1: for every node set that passes validation (resolveOrder succeeds),
the order computed by Pipeline._resolve_order is a valid topological order:
every node appears strictly after every node named in its depends_on list
(each dependency name occurs in the strict prefix before the node), and the
order is a permutation of the node set. -/
theorem claim1_resolve_order_topological (nodes order : List Node)
    (h : resolveOrder nodes = .ok order) :
    (∀ o1 n o2, order = o1 ++ n :: o2 → ∀ d ∈ n.depends_on, d ∈ o1.map Node.name) ∧
      (order.map Node.name).Perm (nodeNames nodes) :=
  ⟨resolveOrder_topo_nodes nodes order h, (resolveOrder_ok_spec nodes order h).2.1⟩

/-- C1 witness: for the concrete pipeline A, B (B depending on A) the theorem
applies with all hypotheses discharged and places the dependency A in the
prefix before B. -/
theorem claim1_witness : "A" ∈ [nodeA].map Node.name :=
  (claim1_resolve_order_topological [nodeA, nodeB] [nodeA, nodeB] rfl).1
    [nodeA] nodeB [] rfl "A" (by decide)

/-- C2: merging two contexts yields the key-wise union of inputs, artifacts
and metadata with the right-hand side winning on every key collision, and
merging a context with itself yields the same context. -/
theorem claim2_merge_contexts (L R : PipelineContext) (hL : CtxWF L) (hR : CtxWF R) :
    (∀ k, dget (mergeContexts (some L) (some R)).inputs k =
        match dget R.inputs k with
        | some v => some v
        | none => dget L.inputs k) ∧
    (∀ k, dget (mergeContexts (some L) (some R)).artifacts k =
        match dget R.artifacts k with
        | some v => some v
        | none => dget L.artifacts k) ∧
    (∀ k, dget (mergeContexts (some L) (some R)).metadata k =
        match dget R.metadata k with
        | some v => some v
        | none => dget L.metadata k) ∧
    mergeContexts (some L) (some L) = L := by
  refine ⟨?_, ?_, ?_, ?_⟩
  · intro k
    exact dget_dunion L.inputs R.inputs k hR.1
  · intro k
    exact dget_dunion L.artifacts R.artifacts k hR.2.1
  · intro k
    exact dget_dunion L.metadata R.metadata k hR.2.2
  · have hm : mergeContexts (some L) (some L) =
        { inputs := dunion L.inputs L.inputs, artifacts := dunion L.artifacts L.artifacts,
          metadata := dunion L.metadata L.metadata } := rfl
    rw [hm, dunion_self _ hL.1, dunion_self _ hL.2.1, dunion_self _ hL.2.2]

/-- C2 witness: at two concrete well-formed contexts sharing the input key
"k", the merged input at "k" is the right-hand value. -/
theorem claim2_witness :
    dget (mergeContexts (some ctxL) (some ctxR)).inputs "k" = some (Val.str "r") := by
  have h := (claim2_merge_contexts ctxL ctxR ⟨by decide, by decide, by decide⟩
    ⟨by decide, by decide, by decide⟩).1 "k"
  rw [h]
  rfl

/-- C3 counterexample: with route_map mapping "stop" to the literal string
"end", the run does not complete: "end" is not one of the sentinel spellings
the code accepts ("END" / "__end__"), so _normalize_route_map raises the
missing-target error and no artifact is stored for R. -/
theorem claim3_counterexample :
    (arunEx [nodeRLower, nodeD] emptyCtx).2 = some (.badRouteTarget "stop" "end") ∧
      dget (arunEx [nodeRLower, nodeD] emptyCtx).1.ctx.artifacts "R" = none := by
  exact ⟨rfl, rfl⟩

/-- C3 amended: with the terminal sentinel spelled "END" (as the code
accepts), running the conditional node R with route_map go to D and stop to
END and the node D depending on R, where R routes "stop", completes and the
final artifacts contain key R but not key D. -/
theorem claim3_amended :
    (arunEx [nodeR, nodeD] emptyCtx).2 = none ∧
      dget (arunEx [nodeR, nodeD] emptyCtx).1.ctx.artifacts "R" = some (Val.str "r") ∧
      dget (arunEx [nodeR, nodeD] emptyCtx).1.ctx.artifacts "D" = none := by
  exact ⟨rfl, rfl, rfl⟩

/-- C4: whenever execution reaches a conditional node on the taken path and
its routing function returns a label with no entry in its route_map, the run
fails with the unknown-route-label error for that node rather than skipping
it. -/
theorem claim4_unknown_label (nodes : List Node) (ctx : PipelineContext)
    (order pre post : List Node) (n : Node) (s : ExecState)
    (h : resolveOrder nodes = .ok order) (hv : validateGraph order = none)
    (hsplit : order = pre ++ n :: post)
    (hpre : execNodes order pre ⟨setMetaOrder ctx order, [], []⟩ = (s, none))
    (hsk : isSkipped s n = false) (hc : n.conditional = true)
    (hf : n.route_map.find? (fun p => p.1 == n.route (applyNode n s.ctx)) = none) :
    (arunEx nodes ctx).2 = some (.unknownRouteLabel n.name (n.route (applyNode n s.ctx))) := by
  subst hsplit
  rw [arunEx_exec nodes ctx _ h hv, execNodes_append, hpre]
  show (execNodes (pre ++ n :: post) (n :: post) s).2 = _
  have hrn : runNode (pre ++ n :: post) n s =
      ({ ctx := applyNode n s.ctx, pruned := s.pruned, executed := s.executed ++ [n.name] },
        some (.unknownRouteLabel n.name (n.route (applyNode n s.ctx)))) := by
    unfold runNode
    rw [if_neg (by simp [hsk]), if_pos hc, hf]
  simp only [execNodes, hrn]

/-- C4 witness: a single conditional node whose routing function returns the
label "y", absent from its route_map, makes the run fail with the
unknown-route-label error for that node. -/
theorem claim4_witness :
    (arunEx [nodeQ] emptyCtx).2 = some (.unknownRouteLabel "Q" "y") :=
  claim4_unknown_label [nodeQ] emptyCtx [nodeQ] [] [] nodeQ
    ⟨setMetaOrder emptyCtx [nodeQ], [], []⟩ rfl rfl rfl rfl rfl rfl rfl

/-- C5 counterexample: for the pipeline [D depending on C, C conditional],
the code's order puts C before D because _resolve_order counts every
depends_on edge, while Kahn's sort with conditional-source edges excluded
(as the claim describes) would emit D before C. -/
theorem claim5_counterexample :
    (resolveOrder [nodeD5, nodeC5]).map (List.map Node.name) =
        (.ok ["C", "D"] : Except PErr (List String)) ∧
      specOrderNames [nodeD5, nodeC5] = (.ok ["D", "C"] : Except PErr (List String)) ∧
      (.ok ["C", "D"] : Except PErr (List String)) ≠ .ok ["D", "C"] := by
  refine ⟨rfl, rfl, ?_⟩
  intro hcon
  simp at hcon

/-- C5 amended: the static execution order is computed by Kahn's sort over
all depends_on edges with no conditional exclusion; since the ordering reads
only node names and dependency lists, the computed order is unaffected by
which nodes are conditional. -/
theorem claim5_amended (n1 n2 : List Node) (h : n1.map sig = n2.map sig) :
    (resolveOrder n1).map (List.map Node.name) = (resolveOrder n2).map (List.map Node.name) :=
  resolveOrder_sig_congr n1 n2 h

/-- C5 witness: flipping the conditional flag of C leaves the computed order
unchanged. -/
theorem claim5_witness :
    (resolveOrder [nodeD5, nodeC5]).map (List.map Node.name) =
      (resolveOrder [nodeD5, nodeC5plain]).map (List.map Node.name) :=
  claim5_amended [nodeD5, nodeC5] [nodeD5, nodeC5plain] rfl

/-- C6 counterexample: a route-target consistency failure is raised only
after Pipeline.arun has already written the execution_order metadata, so the
context passed in is not left unchanged. -/
theorem claim6_counterexample :
    (arunEx [nodeCBadTarget] emptyCtx).2 = some (.badRouteTarget "a" "X") ∧
      dget (arunEx [nodeCBadTarget] emptyCtx).1.ctx.metadata "execution_order" =
        some (Val.names ["C"]) ∧
      dget emptyCtx.metadata "execution_order" = none := by
  exact ⟨rfl, rfl, rfl⟩

/-- C6 amended: every validation failure (duplicate identity, missing
dependency, cycle, conditional-consistency, route-map) is raised before any
node executes, and no artifact is stored and the inputs are untouched; the
context is fully unchanged for the ordering-stage failures, while for
graph-validation failures the execution_order metadata has already been
recorded (every other metadata key is untouched). -/
theorem claim6_amended (nodes : List Node) (ctx : PipelineContext) (st : ExecState) (e : PErr)
    (h : arunEx nodes ctx = (st, some e)) (hv : e.isValidation = true) :
    st.executed = [] ∧ st.ctx.artifacts = ctx.artifacts ∧ st.ctx.inputs = ctx.inputs ∧
      (∀ k, k ≠ "execution_order" → dget st.ctx.metadata k = dget ctx.metadata k) ∧
      (e.isResolveStage = true → st.ctx = ctx) :=
  arunEx_validation_state nodes ctx st e h hv

/-- C6 witness: at the duplicate-name pipeline the theorem applies with all
hypotheses discharged; nothing executed and the context object is untouched.
-/
theorem claim6_witness :
    (⟨emptyCtx, [], []⟩ : ExecState).executed = [] ∧
      (⟨emptyCtx, [], []⟩ : ExecState).ctx = emptyCtx :=
  ⟨(claim6_amended [nodeA, nodeA2] emptyCtx ⟨emptyCtx, [], []⟩ .duplicateNode rfl rfl).1,
    (claim6_amended [nodeA, nodeA2] emptyCtx ⟨emptyCtx, [], []⟩ .duplicateNode rfl rfl).2.2.2.2
      rfl⟩

/-- C7 counterexample: the node set with the single node A depending on A and
on "ghost" has a dependency cycle (the self-loop on A) but fails with the
missing-dependency error, not the dependency-cycle error. -/
theorem claim7_counterexample :
    (arunEx [nodeSelf] emptyCtx).2 = some (.missingDependency ["ghost"]) := by
  exact rfl

/-- C7 amended: for every node set passing the duplicate and
missing-dependency checks whose dependency graph contains a cycle, the run
fails with the dependency-cycle error carrying exactly the residual node
names that could not be ordered (and every cycle member is among them), no
node executes, and the context, hence the artifact mapping, is unchanged. -/
theorem claim7_amended (nodes : List Node) (ctx : PipelineContext) (a : String)
    (l : List String) (hnd : (nodeNames nodes).Nodup)
    (hmiss : (missingDependencies nodes).isEmpty = true)
    (hchain : List.Chain (DepRel nodes) a (l ++ [a])) :
    arunEx nodes ctx = (⟨ctx, [], []⟩, some (.dependencyCycle (cycleResidual nodes))) ∧
      ∀ x ∈ a :: l, x ∈ cycleResidual nodes := by
  obtain ⟨h1, h2⟩ := cycle_resolveOrder nodes hnd hmiss a l hchain
  exact ⟨arunEx_resolve_error nodes ctx _ h1, h2⟩

/-- C7 witness: the two-node cycle X depends on Y depends on X fails with the
dependency-cycle error naming both nodes, with the context untouched. -/
theorem claim7_witness :
    arunEx [nodeX, nodeY] emptyCtx =
        (⟨emptyCtx, [], []⟩, some (.dependencyCycle ["X", "Y"])) ∧
      "X" ∈ cycleResidual [nodeX, nodeY] := by
  have h := claim7_amended [nodeX, nodeY] emptyCtx "X" ["Y"] (by decide) rfl
    (List.Chain.cons (show "Y" ∈ depsOf [nodeX, nodeY] "X" by decide)
      (List.Chain.cons (show "X" ∈ depsOf [nodeX, nodeY] "Y" by decide) List.Chain.nil))
  exact ⟨h.1.trans (by rfl), h.2 "X" (by decide)⟩

/-- C8: throughout every run started from a context holding no artifacts, the
artifact keys after any prefix of the static order are exactly the
identities of the nodes executed so far on the taken path, in execution
order, and no identity executes twice (so no node overwrites an artifact
stored under another node's identity: each write goes to the writer's own,
previously absent, key). -/
theorem claim8_artifact_keys (nodes : List Node) (ctx : PipelineContext)
    (order pre post : List Node)
    (h : resolveOrder nodes = .ok order) (hv : validateGraph order = none)
    (hart : ctx.artifacts = []) (hsplit : order = pre ++ post) :
    arunEx nodes ctx = execNodes order order ⟨setMetaOrder ctx order, [], []⟩ ∧
      dkeys (execNodes order pre ⟨setMetaOrder ctx order, [], []⟩).1.ctx.artifacts =
        (execNodes order pre ⟨setMetaOrder ctx order, [], []⟩).1.executed ∧
      (execNodes order pre ⟨setMetaOrder ctx order, [], []⟩).1.executed.Nodup := by
  have hnd : (order.map Node.name).Nodup := (resolveOrder_ok_spec nodes order h).2.2.2
  have hprend : (pre.map Node.name).Nodup := by
    rw [hsplit] at hnd
    simp only [List.map_append] at hnd
    exact (List.nodup_append.mp hnd).1
  have hinv := execNodes_artifacts_inv order pre ⟨setMetaOrder ctx order, [], []⟩ hprend
    (by simp [setMetaOrder, hart, dkeys]) List.nodup_nil (by intro x hx; simp at hx)
  exact ⟨arunEx_exec nodes ctx order h hv, hinv.1, hinv.2⟩

/-- C8 witness: after running the prefix consisting of node A of the pipeline
A, B the artifact keys are exactly the executed list. -/
theorem claim8_witness :
    dkeys (execNodes [nodeA, nodeB] [nodeA]
        ⟨setMetaOrder emptyCtx [nodeA, nodeB], [], []⟩).1.ctx.artifacts =
      (execNodes [nodeA, nodeB] [nodeA]
        ⟨setMetaOrder emptyCtx [nodeA, nodeB], [], []⟩).1.executed :=
  (claim8_artifact_keys [nodeA, nodeB] emptyCtx [nodeA, nodeB] [nodeA] [nodeB]
    rfl rfl rfl rfl).2.1

/-- C9: two runs of the same node list from fresh contexts (no artifacts, no
metadata) with equal inputs record equal execution_order metadata and equal
artifact key lists. -/
theorem claim9_deterministic (nodes : List Node) (c1 c2 : PipelineContext)
    (hin : c1.inputs = c2.inputs) (ha1 : c1.artifacts = []) (ha2 : c2.artifacts = [])
    (hm1 : c1.metadata = []) (hm2 : c2.metadata = []) :
    dget (arun nodes c1).1.metadata "execution_order" =
        dget (arun nodes c2).1.metadata "execution_order" ∧
      dkeys (arun nodes c1).1.artifacts = dkeys (arun nodes c2).1.artifacts := by
  have hceq : c1 = c2 := by
    cases c1
    cases c2
    simp_all
  rw [hceq]
  exact ⟨rfl, rfl⟩

/-- C9 witness: the theorem applies to two runs of the pipeline A, B from the
same fresh inputs. -/
theorem claim9_witness :
    dget (arun [nodeA, nodeB] { inputs := [("i", Val.str "v")] }).1.metadata
        "execution_order" =
      dget (arun [nodeA, nodeB] { inputs := [("i", Val.str "v")] }).1.metadata
        "execution_order" :=
  (claim9_deterministic [nodeA, nodeB] { inputs := [("i", Val.str "v")] }
    { inputs := [("i", Val.str "v")] } rfl rfl rfl rfl rfl).1

/-- C10 counterexample: the node set contains the conditional node C1 with an
empty route_map, yet building fails with the orphaned-dependency error for N
and C2 raised by the consistency check that runs first; the error does not
name C1. -/
theorem claim10_counterexample :
    (arunEx [nodeN10, nodeC2cond, nodeC1empty] emptyCtx).2 =
        some (.orphanedConditionalDependency "N" "C2") ∧
      (arunEx [nodeN10, nodeC2cond, nodeC1empty] emptyCtx).2 ≠
        some (.emptyRouteMap "C1") := by
  refine ⟨rfl, ?_⟩
  intro hcon
  rw [show (arunEx [nodeN10, nodeC2cond, nodeC1empty] emptyCtx).2 =
      some (.orphanedConditionalDependency "N" "C2") from rfl] at hcon
  simp at hcon

/-- C10 amended: when ordering succeeds, both conditional-consistency checks
pass and every route target of every conditional node is a sentinel or an
existing node, a node set containing a conditional node with an empty
route_map fails while building the graph with the empty-route-map error
naming the first such conditional node in order, before any node executes. -/
theorem claim10_amended (nodes : List Node) (ctx : PipelineContext) (order : List Node)
    (cname : String) (h : resolveOrder nodes = .ok order)
    (ho : firstOrphan order = none) (hu : firstUnlisted order = none)
    (h4 : ∀ c ∈ order, c.conditional = true → ∀ p ∈ c.route_map,
      p.2 = "END" ∨ p.2 = "__end__" ∨ p.2 ∈ nodeNames order)
    (hfe : firstEmptyConditional order = some cname) :
    arunEx nodes ctx = (⟨setMetaOrder ctx order, [], []⟩, some (.emptyRouteMap cname)) := by
  have hvg : validateGraph order = some (.emptyRouteMap cname) := by
    unfold validateGraph
    rw [ho]
    rw [hu]
    exact firstRouteMapError_of_targets_ok order h4 cname hfe
  exact arunEx_graph_error nodes ctx order _ h hvg

/-- C10 witness: the pipeline consisting of the single conditional node C1
with an empty route_map fails with the empty-route-map error naming C1. -/
theorem claim10_witness :
    arunEx [nodeC1empty] emptyCtx =
      (⟨setMetaOrder emptyCtx [nodeC1empty], [], []⟩, some (.emptyRouteMap "C1")) :=
  claim10_amended [nodeC1empty] emptyCtx [nodeC1empty] "C1" rfl rfl rfl
    (by
      intro c hc _ p hp
      rw [List.mem_singleton.mp hc] at hp
      simp [nodeC1empty] at hp)
    rfl

end ProductFlowAgent
